import Mathlib

/-!
Verification of the AST traversal / transformation engine of `odata_query.visitor`
(`NodeVisitor` and `NodeTransformer`), shallowly embedded in Lean.

The node abstraction (`odata_query.ast`) is a family of dataclasses: each node
carries an ordered list of named fields, and a field value is either an opaque
scalar, a child node, or a Python list whose items may or may not be nodes.
`iter_dataclass_fields` enumerates the `(name, value)` pairs in declaration
order.  We embed this data model as a mutual inductive family: `NodeV` is a
node (class name plus ordered fields), `FieldsV` the ordered field list,
`ValueV` a field value, and `ItemsV` the items of a list value.
-/

mutual

/-- Modelled from the spec: the node abstraction (`odata_query.ast`, not among
the sources) — a node is a tagged variant carrying a stable kind identifier
(its class name) and an ordered list of named fields. -/
inductive NodeV where
  | mk : String → FieldsV → NodeV
deriving DecidableEq

/-- Modelled from the spec: the ordered, named field list of a node kind. -/
inductive FieldsV where
  | nil : FieldsV
  | cons : String → ValueV → FieldsV → FieldsV
deriving DecidableEq

/-- Modelled from the spec: a field value — an opaque scalar, a single child
node, or a list; list items are classified per item by the engines. -/
inductive ValueV where
  | scalar : Nat → ValueV
  | node : NodeV → ValueV
  | vlist : ItemsV → ValueV
deriving DecidableEq

/-- Modelled from the spec: the items of a list-valued field. -/
inductive ItemsV where
  | nil : ItemsV
  | cons : ValueV → ItemsV → ItemsV
deriving DecidableEq

end

/-- The node's concrete class name (`node.__class__.__name__`). -/
def NodeV.kind : NodeV → String
  | .mk k _ => k

/-- The node's ordered field list. -/
def NodeV.fieldsOf : NodeV → FieldsV
  | .mk _ fs => fs

/-- Embedding of `iter_dataclass_fields`: the `(fieldname, value)` pairs of a
node, in dataclass declaration order. -/
def iter_dataclass_fields : NodeV → List (String × ValueV)
  | .mk _ .nil => []
  | .mk k (.cons name v rest) => (name, v) :: iter_dataclass_fields (.mk k rest)

/-- The field names of a field list, in declared order. -/
def FieldsV.names : FieldsV → List String
  | .nil => []
  | .cons name _ rest => name :: rest.names

/-- The items of a list value, as a Lean list. -/
def ItemsV.toList : ItemsV → List ValueV
  | .nil => []
  | .cons v rest => v :: rest.toList

/-- Whether a value is a node instance (`isinstance(value, ast._Node)`). -/
def ValueV.isNode : ValueV → Bool
  | .node _ => true
  | _ => false

/-- An observable event of a traversal: either a registered `visit_<Kind>`
handler was invoked (recording the kind it was registered for and the node it
received), or the node fell through to `generic_visit`. -/
inductive Event where
  | handled : String → NodeV → Event
  | visited : NodeV → Event
deriving DecidableEq

/-- The nodes that reached `generic_visit`, in order. -/
def extractVisited (es : List Event) : List NodeV :=
  es.filterMap (fun e =>
    match e with
    | .visited n => some n
    | _ => none)

/-- A handler table: `hs k = some h` models a subclass that defines a method
`visit_<k>` with body `h`; `hs k = none` models the absence of that attribute,
in which case `getattr(self, method, self.generic_visit)` yields
`generic_visit`. -/
abbrev Handlers (α : Type) := String → Option (NodeV → α)

/-- The empty handler table: no `visit_<Kind>` method is defined. -/
def noHandlers {β : Type} : String → Option β := fun _ => none

mutual

/-- Embedding of `NodeVisitor.visit`: resolve `"visit_" + node.__class__.__name__`;
if the handler exists invoke it on the node and forward its result, else fall
back to `generic_visit` (which returns `None`).  The first component is the
trace of events the call produces; the second is the returned value. -/
def NodeVisitor.visit {α : Type} (hs : Handlers α) : NodeV → List Event × Option α
  | .mk k fs =>
    match hs k with
    | some h => ([.handled k (.mk k fs)], some (h (.mk k fs)))
    | none => (.visited (.mk k fs) :: NodeVisitor.genericFields hs fs, none)

/-- Embedding of the loop of `NodeVisitor.generic_visit` over
`iter_dataclass_fields(node)`: fields are processed in declared order. -/
def NodeVisitor.genericFields {α : Type} (hs : Handlers α) : FieldsV → List Event
  | .nil => []
  | .cons _ v rest => NodeVisitor.genericValue hs v ++ NodeVisitor.genericFields hs rest

/-- One field value inside `NodeVisitor.generic_visit`: a list is scanned item
by item, a node value is visited, anything else is skipped. -/
def NodeVisitor.genericValue {α : Type} (hs : Handlers α) : ValueV → List Event
  | .scalar _ => []
  | .node n => (NodeVisitor.visit hs n).1
  | .vlist items => NodeVisitor.genericItems hs items

/-- The item loop of `NodeVisitor.generic_visit`: only items that are node
instances are visited; other items (including nested lists) are skipped. -/
def NodeVisitor.genericItems {α : Type} (hs : Handlers α) : ItemsV → List Event
  | .nil => []
  | .cons v rest =>
    (match v with
     | .node n => (NodeVisitor.visit hs n).1
     | _ => []) ++ NodeVisitor.genericItems hs rest

end

mutual

/-- Modelled from the spec: the pre-order enumeration of the nodes of a tree —
each node before any of its children, children taken field by field in the
node's declared field order, and inside a list-valued field in list order;
scalar values contribute nothing.  Written from the specification's words, to
be compared with the engine's trace. -/
def specPreorder : NodeV → List NodeV
  | .mk k fs => .mk k fs :: specPreorderFields fs

/-- Spec-side enumeration of the children below a field list, in declared
field order. -/
def specPreorderFields : FieldsV → List NodeV
  | .nil => []
  | .cons _ v rest => specPreorderValue v ++ specPreorderFields rest

/-- Spec-side enumeration of the children below one field value. -/
def specPreorderValue : ValueV → List NodeV
  | .scalar _ => []
  | .node n => specPreorder n
  | .vlist items => specPreorderItems items

/-- Spec-side enumeration of the children below a list value, in list order. -/
def specPreorderItems : ItemsV → List NodeV
  | .nil => []
  | .cons v rest =>
    (match v with
     | .node n => specPreorder n
     | _ => []) ++ specPreorderItems rest

end

mutual

/-- The number of node positions in a tree (the root plus all node positions
below its fields). -/
def NodeV.count : NodeV → Nat
  | .mk _ fs => 1 + fs.count

/-- The number of node positions below a field list. -/
def FieldsV.count : FieldsV → Nat
  | .nil => 0
  | .cons _ v rest => v.count + rest.count

/-- The number of node positions below a field value. -/
def ValueV.count : ValueV → Nat
  | .scalar _ => 0
  | .node n => n.count
  | .vlist items => items.count

/-- The number of node positions below the items of a list value. -/
def ItemsV.count : ItemsV → Nat
  | .nil => 0
  | .cons v rest =>
    (match v with
     | .node n => n.count
     | _ => 0) + rest.count

end

mutual

theorem visit_trace_eq_specPreorder {α : Type} (t : NodeV) :
    (NodeVisitor.visit (α := α) noHandlers t).1 = (specPreorder t).map .visited := by
  cases t with
  | mk k fs =>
    simp [NodeVisitor.visit, specPreorder, noHandlers,
      genericFields_trace_eq_specPreorder (α := α) fs]

theorem genericFields_trace_eq_specPreorder {α : Type} (fs : FieldsV) :
    NodeVisitor.genericFields (α := α) noHandlers fs = (specPreorderFields fs).map .visited := by
  cases fs with
  | nil => rfl
  | cons name v rest =>
    simp [NodeVisitor.genericFields, specPreorderFields,
      genericValue_trace_eq_specPreorder (α := α) v,
      genericFields_trace_eq_specPreorder (α := α) rest]

theorem genericValue_trace_eq_specPreorder {α : Type} (v : ValueV) :
    NodeVisitor.genericValue (α := α) noHandlers v = (specPreorderValue v).map .visited := by
  cases v with
  | scalar s => rfl
  | node n =>
    simp [NodeVisitor.genericValue, specPreorderValue,
      visit_trace_eq_specPreorder (α := α) n]
  | vlist items =>
    simp [NodeVisitor.genericValue, specPreorderValue,
      genericItems_trace_eq_specPreorder (α := α) items]

theorem genericItems_trace_eq_specPreorder {α : Type} (its : ItemsV) :
    NodeVisitor.genericItems (α := α) noHandlers its = (specPreorderItems its).map .visited := by
  cases its with
  | nil => rfl
  | cons v rest =>
    cases v with
    | scalar s =>
      simp [NodeVisitor.genericItems, specPreorderItems,
        genericItems_trace_eq_specPreorder (α := α) rest]
    | node n =>
      simp [NodeVisitor.genericItems, specPreorderItems,
        visit_trace_eq_specPreorder (α := α) n,
        genericItems_trace_eq_specPreorder (α := α) rest]
    | vlist inner =>
      simp [NodeVisitor.genericItems, specPreorderItems,
        genericItems_trace_eq_specPreorder (α := α) rest]

end

mutual

theorem specPreorder_length (t : NodeV) : (specPreorder t).length = t.count := by
  cases t with
  | mk k fs =>
    simp [specPreorder, NodeV.count, specPreorderFields_length fs, Nat.add_comm]

theorem specPreorderFields_length (fs : FieldsV) :
    (specPreorderFields fs).length = fs.count := by
  cases fs with
  | nil => rfl
  | cons name v rest =>
    simp [specPreorderFields, FieldsV.count, specPreorderValue_length v,
      specPreorderFields_length rest]

theorem specPreorderValue_length (v : ValueV) :
    (specPreorderValue v).length = v.count := by
  cases v with
  | scalar s => rfl
  | node n => simpa [specPreorderValue, ValueV.count] using specPreorder_length n
  | vlist items =>
    simpa [specPreorderValue, ValueV.count] using specPreorderItems_length items

theorem specPreorderItems_length (its : ItemsV) :
    (specPreorderItems its).length = its.count := by
  cases its with
  | nil => rfl
  | cons v rest =>
    cases v with
    | scalar s =>
      simp [specPreorderItems, ItemsV.count, specPreorderItems_length rest]
    | node n =>
      simp [specPreorderItems, ItemsV.count, specPreorder_length n,
        specPreorderItems_length rest]
    | vlist inner =>
      simp [specPreorderItems, ItemsV.count, specPreorderItems_length rest]

end

theorem extractVisited_map_visited (ns : List NodeV) :
    extractVisited (ns.map .visited) = ns := by
  induction ns with
  | nil => rfl
  | cons n rest ih => simp [extractVisited] at ih ⊢; exact ih

/-- A transformer handler table: `visit_<Kind>` methods of a `NodeTransformer`
subclass.  A handler receives the node and may return any value (node or not);
the engine uses the result as-is. -/
abbrev THandlers := String → Option (NodeV → ValueV)

mutual

/-- Embedding of `NodeTransformer.visit` (inherited from `NodeVisitor.visit`):
dispatch on the node's class name; a registered handler's result is returned
as-is, otherwise the node is rebuilt generically from its processed fields
(the body of `NodeTransformer.generic_visit`). -/
def NodeTransformer.visit (hs : THandlers) : NodeV → ValueV
  | .mk k fs =>
    match hs k with
    | some h => h (.mk k fs)
    | none => .node (.mk k (NodeTransformer.transFields hs fs))

/-- The field loop of `NodeTransformer.generic_visit`: each field keeps its
name and position; its value is replaced as the loop body dictates. -/
def NodeTransformer.transFields (hs : THandlers) : FieldsV → FieldsV
  | .nil => .nil
  | .cons name v rest =>
    .cons name (NodeTransformer.transValue hs v) (NodeTransformer.transFields hs rest)

/-- One field value in `NodeTransformer.generic_visit`: a list is rebuilt item
by item, a node value becomes `self.visit(value)`, any other value is passed
through unchanged. -/
def NodeTransformer.transValue (hs : THandlers) : ValueV → ValueV
  | .scalar s => .scalar s
  | .node n => NodeTransformer.visit hs n
  | .vlist items => .vlist (NodeTransformer.transItems hs items)

/-- The body of the item loop of `NodeTransformer.generic_visit`: an item that
is a node instance becomes `self.visit(item)`; any other item is kept
unchanged. -/
def NodeTransformer.transItem (hs : THandlers) : ValueV → ValueV
  | .node n => NodeTransformer.visit hs n
  | x => x

/-- The item loop of `NodeTransformer.generic_visit`: each item is processed by
the loop body and appended at the same position. -/
def NodeTransformer.transItems (hs : THandlers) : ItemsV → ItemsV
  | .nil => .nil
  | .cons v rest =>
    .cons (NodeTransformer.transItem hs v) (NodeTransformer.transItems hs rest)

end

/-- Embedding of `NodeTransformer.generic_visit` as a named operation: rebuild
`type(node)(**new_kwargs)` — a node of the same kind whose fields carry the
same names in the same declared order, with values processed by the loop. -/
def NodeTransformer.generic_visit (hs : THandlers) (n : NodeV) : NodeV :=
  .mk n.kind (NodeTransformer.transFields hs n.fieldsOf)

theorem transformer_visit_eq_dispatch (hs : THandlers) (n : NodeV) :
    NodeTransformer.visit hs n =
      match hs n.kind with
      | some h => h n
      | none => .node (NodeTransformer.generic_visit hs n) := by
  cases n with
  | mk k fs => rfl

theorem transFields_names (hs : THandlers) (fs : FieldsV) :
    (NodeTransformer.transFields hs fs).names = fs.names := by
  cases fs with
  | nil => rfl
  | cons name v rest =>
    simp [NodeTransformer.transFields, FieldsV.names, transFields_names hs rest]

mutual

theorem transformer_visit_noHandlers_id (t : NodeV) :
    NodeTransformer.visit noHandlers t = .node t := by
  cases t with
  | mk k fs =>
    simp [NodeTransformer.visit, NodeTransformer.generic_visit, noHandlers,
      transFields_noHandlers_id fs]

theorem transFields_noHandlers_id (fs : FieldsV) :
    NodeTransformer.transFields noHandlers fs = fs := by
  cases fs with
  | nil => rfl
  | cons name v rest =>
    simp [NodeTransformer.transFields, transValue_noHandlers_id v,
      transFields_noHandlers_id rest]

theorem transValue_noHandlers_id (v : ValueV) :
    NodeTransformer.transValue noHandlers v = v := by
  cases v with
  | scalar s => rfl
  | node n =>
    simp [NodeTransformer.transValue, transformer_visit_noHandlers_id n]
  | vlist items =>
    simp [NodeTransformer.transValue, transItems_noHandlers_id items]

theorem transItems_noHandlers_id (its : ItemsV) :
    NodeTransformer.transItems noHandlers its = its := by
  cases its with
  | nil => rfl
  | cons v rest =>
    cases v with
    | scalar s =>
      simp [NodeTransformer.transItems, NodeTransformer.transItem,
        transItems_noHandlers_id rest]
    | node n =>
      simp [NodeTransformer.transItems, NodeTransformer.transItem,
        transformer_visit_noHandlers_id n, transItems_noHandlers_id rest]
    | vlist inner =>
      simp [NodeTransformer.transItems, NodeTransformer.transItem,
        transItems_noHandlers_id rest]

end

theorem transItems_toList (hs : THandlers) (its : ItemsV) :
    (NodeTransformer.transItems hs its).toList =
      its.toList.map (NodeTransformer.transItem hs) := by
  cases its with
  | nil => rfl
  | cons v rest =>
    simp [NodeTransformer.transItems, ItemsV.toList, transItems_toList hs rest]

mutual

/-- The depth of a tree: the number of nested `visit` calls a traversal of it
needs — 1 for the root plus the largest depth among its child nodes. -/
def NodeV.depth : NodeV → Nat
  | .mk _ fs => 1 + fs.depth

/-- The largest depth among the child nodes below a field list (0 if none). -/
def FieldsV.depth : FieldsV → Nat
  | .nil => 0
  | .cons _ v rest => max v.depth rest.depth

/-- The largest depth among the child nodes below a field value (0 if none). -/
def ValueV.depth : ValueV → Nat
  | .scalar _ => 0
  | .node n => n.depth
  | .vlist items => items.depth

/-- The depth contributed by one list item: the item's depth if it is a node,
0 otherwise (non-node items are not traversed). -/
def ValueV.itemDepth : ValueV → Nat
  | .node n => n.depth
  | _ => 0

/-- The largest depth among the node items of a list value (0 if none). -/
def ItemsV.depth : ItemsV → Nat
  | .nil => 0
  | .cons v rest => max v.itemDepth rest.depth

end

mutual

/-- Depth-bounded field loop of the plain (handler-free) `generic_visit`:
`go` is the visit of one child, one call-stack level further down. -/
def levelFields (go : NodeV → Option (List NodeV)) : FieldsV → Option (List NodeV)
  | .nil => some []
  | .cons _ v rest => do
    let a ← levelValue go v
    let b ← levelFields go rest
    pure (a ++ b)

/-- Depth-bounded processing of one field value of the plain `generic_visit`. -/
def levelValue (go : NodeV → Option (List NodeV)) : ValueV → Option (List NodeV)
  | .scalar _ => some []
  | .node n => go n
  | .vlist items => levelItems go items

/-- Depth-bounded item loop of the plain `generic_visit`. -/
def levelItems (go : NodeV → Option (List NodeV)) : ItemsV → Option (List NodeV)
  | .nil => some []
  | .cons v rest => do
    let a ←
      (match v with
       | .node n => go n
       | _ => some [])
    let b ← levelItems go rest
    pure (a ++ b)

end

/-- The plain (handler-free) `NodeVisitor.visit` instrumented with an explicit
call-stack budget: each nested `visit` call consumes one unit of fuel, and the
traversal reports `none` when the budget is exhausted.  With enough fuel it
returns the trace of visited nodes. -/
def visitFuel : Nat → NodeV → Option (List NodeV)
  | 0, _ => none
  | d+1, .mk k fs => (levelFields (visitFuel d) fs).map (fun r => .mk k fs :: r)

mutual

/-- Depth-bounded field loop of the handler-free `NodeTransformer.generic_visit`. -/
def levelTFields (go : NodeV → Option ValueV) : FieldsV → Option FieldsV
  | .nil => some .nil
  | .cons name v rest => do
    let a ← levelTValue go v
    let b ← levelTFields go rest
    pure (.cons name a b)

/-- Depth-bounded processing of one field value of the handler-free
`NodeTransformer.generic_visit`. -/
def levelTValue (go : NodeV → Option ValueV) : ValueV → Option ValueV
  | .scalar s => some (.scalar s)
  | .node n => go n
  | .vlist items => (levelTItems go items).map .vlist

/-- Depth-bounded item loop of the handler-free `NodeTransformer.generic_visit`. -/
def levelTItems (go : NodeV → Option ValueV) : ItemsV → Option ItemsV
  | .nil => some .nil
  | .cons v rest => do
    let a ←
      (match v with
       | .node n => go n
       | x => some x)
    let b ← levelTItems go rest
    pure (.cons a b)

end

/-- The handler-free `NodeTransformer.visit` instrumented with an explicit
call-stack budget, analogous to `visitFuel`. -/
def transformFuel : Nat → NodeV → Option ValueV
  | 0, _ => none
  | d+1, .mk k fs => (levelTFields (transformFuel d) fs).map (fun r => .node (.mk k r))

mutual

theorem visitFuel_adequate (t : NodeV) (d : Nat) (h : t.depth ≤ d) :
    visitFuel d t = some (specPreorder t) := by
  cases t with
  | mk k fs =>
    cases d with
    | zero =>
      exfalso
      rw [NodeV.depth] at h
      omega
    | succ e =>
      rw [NodeV.depth] at h
      have he : fs.depth ≤ e := by omega
      simp [visitFuel, specPreorder, levelFields_adequate fs e he]
termination_by sizeOf t

theorem levelFields_adequate (fs : FieldsV) (d : Nat) (h : fs.depth ≤ d) :
    levelFields (visitFuel d) fs = some (specPreorderFields fs) := by
  cases fs with
  | nil => rfl
  | cons name v rest =>
    rw [FieldsV.depth] at h
    have hv : v.depth ≤ d := le_trans (le_max_left _ _) h
    have hr : rest.depth ≤ d := le_trans (le_max_right _ _) h
    simp [levelFields, specPreorderFields, levelValue_adequate v d hv,
      levelFields_adequate rest d hr]
termination_by sizeOf fs

theorem levelValue_adequate (v : ValueV) (d : Nat) (h : v.depth ≤ d) :
    levelValue (visitFuel d) v = some (specPreorderValue v) := by
  cases v with
  | scalar s => rfl
  | node n =>
    rw [ValueV.depth] at h
    simpa [levelValue, specPreorderValue] using visitFuel_adequate n d h
  | vlist items =>
    rw [ValueV.depth] at h
    simpa [levelValue, specPreorderValue] using levelItems_adequate items d h
termination_by sizeOf v

theorem levelItems_adequate (its : ItemsV) (d : Nat) (h : its.depth ≤ d) :
    levelItems (visitFuel d) its = some (specPreorderItems its) := by
  cases its with
  | nil => rfl
  | cons v rest =>
    rw [ItemsV.depth] at h
    have hv : v.itemDepth ≤ d := le_trans (le_max_left _ _) h
    have hr : rest.depth ≤ d := le_trans (le_max_right _ _) h
    cases v with
    | scalar s =>
      simp [levelItems, specPreorderItems, levelItems_adequate rest d hr]
    | node n =>
      rw [ValueV.itemDepth] at hv
      simp [levelItems, specPreorderItems, visitFuel_adequate n d hv,
        levelItems_adequate rest d hr]
    | vlist inner =>
      simp [levelItems, specPreorderItems, levelItems_adequate rest d hr]
termination_by sizeOf its

end

mutual

theorem visitFuel_minimal (t : NodeV) (d : Nat) (h : d < t.depth) :
    visitFuel d t = none := by
  cases t with
  | mk k fs =>
    cases d with
    | zero => rfl
    | succ e =>
      rw [NodeV.depth] at h
      have he : e < fs.depth := by omega
      simp [visitFuel, levelFields_minimal fs e he]
termination_by sizeOf t

theorem levelFields_minimal (fs : FieldsV) (d : Nat) (h : d < fs.depth) :
    levelFields (visitFuel d) fs = none := by
  cases fs with
  | nil =>
    exfalso
    rw [FieldsV.depth] at h
    omega
  | cons name v rest =>
    rw [FieldsV.depth] at h
    rcases lt_max_iff.mp h with hv | hr
    · simp [levelFields, levelValue_minimal v d hv]
    · cases ha : levelValue (visitFuel d) v with
      | none => simp [levelFields, ha]
      | some a => simp [levelFields, ha, levelFields_minimal rest d hr]
termination_by sizeOf fs

theorem levelValue_minimal (v : ValueV) (d : Nat) (h : d < v.depth) :
    levelValue (visitFuel d) v = none := by
  cases v with
  | scalar s =>
    exfalso
    rw [ValueV.depth] at h
    omega
  | node n =>
    rw [ValueV.depth] at h
    simpa [levelValue] using visitFuel_minimal n d h
  | vlist items =>
    rw [ValueV.depth] at h
    simpa [levelValue] using levelItems_minimal items d h
termination_by sizeOf v

theorem levelItems_minimal (its : ItemsV) (d : Nat) (h : d < its.depth) :
    levelItems (visitFuel d) its = none := by
  cases its with
  | nil =>
    exfalso
    rw [ItemsV.depth] at h
    omega
  | cons v rest =>
    rw [ItemsV.depth] at h
    rcases lt_max_iff.mp h with hv | hr
    · cases v with
      | scalar s =>
        exfalso
        have h0 : (ValueV.scalar s).itemDepth = 0 := rfl
        rw [h0] at hv
        omega
      | node n =>
        rw [ValueV.itemDepth] at hv
        simp [levelItems, visitFuel_minimal n d hv]
      | vlist inner =>
        exfalso
        have h0 : (ValueV.vlist inner).itemDepth = 0 := rfl
        rw [h0] at hv
        omega
    · cases v with
      | scalar s =>
        simp [levelItems, levelItems_minimal rest d hr]
      | node n =>
        cases ha : visitFuel d n with
        | none => simp [levelItems, ha]
        | some a => simp [levelItems, ha, levelItems_minimal rest d hr]
      | vlist inner =>
        simp [levelItems, levelItems_minimal rest d hr]
termination_by sizeOf its

end

mutual

theorem transformFuel_adequate (t : NodeV) (d : Nat) (h : t.depth ≤ d) :
    transformFuel d t = some (.node t) := by
  cases t with
  | mk k fs =>
    cases d with
    | zero =>
      exfalso
      rw [NodeV.depth] at h
      omega
    | succ e =>
      rw [NodeV.depth] at h
      have he : fs.depth ≤ e := by omega
      simp [transformFuel, levelTFields_adequate fs e he]
termination_by sizeOf t

theorem levelTFields_adequate (fs : FieldsV) (d : Nat) (h : fs.depth ≤ d) :
    levelTFields (transformFuel d) fs = some fs := by
  cases fs with
  | nil => rfl
  | cons name v rest =>
    rw [FieldsV.depth] at h
    have hv : v.depth ≤ d := le_trans (le_max_left _ _) h
    have hr : rest.depth ≤ d := le_trans (le_max_right _ _) h
    simp [levelTFields, levelTValue_adequate v d hv, levelTFields_adequate rest d hr]
termination_by sizeOf fs

theorem levelTValue_adequate (v : ValueV) (d : Nat) (h : v.depth ≤ d) :
    levelTValue (transformFuel d) v = some v := by
  cases v with
  | scalar s => rfl
  | node n =>
    rw [ValueV.depth] at h
    simpa [levelTValue] using transformFuel_adequate n d h
  | vlist items =>
    rw [ValueV.depth] at h
    simp [levelTValue, levelTItems_adequate items d h]
termination_by sizeOf v

theorem levelTItems_adequate (its : ItemsV) (d : Nat) (h : its.depth ≤ d) :
    levelTItems (transformFuel d) its = some its := by
  cases its with
  | nil => rfl
  | cons v rest =>
    rw [ItemsV.depth] at h
    have hv : v.itemDepth ≤ d := le_trans (le_max_left _ _) h
    have hr : rest.depth ≤ d := le_trans (le_max_right _ _) h
    cases v with
    | scalar s =>
      simp [levelTItems, levelTItems_adequate rest d hr]
    | node n =>
      rw [ValueV.itemDepth] at hv
      simp [levelTItems, transformFuel_adequate n d hv, levelTItems_adequate rest d hr]
    | vlist inner =>
      simp [levelTItems, levelTItems_adequate rest d hr]
termination_by sizeOf its

end

mutual

theorem transformFuel_minimal (t : NodeV) (d : Nat) (h : d < t.depth) :
    transformFuel d t = none := by
  cases t with
  | mk k fs =>
    cases d with
    | zero => rfl
    | succ e =>
      rw [NodeV.depth] at h
      have he : e < fs.depth := by omega
      simp [transformFuel, levelTFields_minimal fs e he]
termination_by sizeOf t

theorem levelTFields_minimal (fs : FieldsV) (d : Nat) (h : d < fs.depth) :
    levelTFields (transformFuel d) fs = none := by
  cases fs with
  | nil =>
    exfalso
    rw [FieldsV.depth] at h
    omega
  | cons name v rest =>
    rw [FieldsV.depth] at h
    rcases lt_max_iff.mp h with hv | hr
    · simp [levelTFields, levelTValue_minimal v d hv]
    · cases ha : levelTValue (transformFuel d) v with
      | none => simp [levelTFields, ha]
      | some a => simp [levelTFields, ha, levelTFields_minimal rest d hr]
termination_by sizeOf fs

theorem levelTValue_minimal (v : ValueV) (d : Nat) (h : d < v.depth) :
    levelTValue (transformFuel d) v = none := by
  cases v with
  | scalar s =>
    exfalso
    rw [ValueV.depth] at h
    omega
  | node n =>
    rw [ValueV.depth] at h
    simpa [levelTValue] using transformFuel_minimal n d h
  | vlist items =>
    rw [ValueV.depth] at h
    simp [levelTValue, levelTItems_minimal items d h]
termination_by sizeOf v

theorem levelTItems_minimal (its : ItemsV) (d : Nat) (h : d < its.depth) :
    levelTItems (transformFuel d) its = none := by
  cases its with
  | nil =>
    exfalso
    rw [ItemsV.depth] at h
    omega
  | cons v rest =>
    rw [ItemsV.depth] at h
    rcases lt_max_iff.mp h with hv | hr
    · cases v with
      | scalar s =>
        exfalso
        have h0 : (ValueV.scalar s).itemDepth = 0 := rfl
        rw [h0] at hv
        omega
      | node n =>
        rw [ValueV.itemDepth] at hv
        simp [levelTItems, transformFuel_minimal n d hv]
      | vlist inner =>
        exfalso
        have h0 : (ValueV.vlist inner).itemDepth = 0 := rfl
        rw [h0] at hv
        omega
    · cases v with
      | scalar s =>
        simp [levelTItems, levelTItems_minimal rest d hr]
      | node n =>
        cases ha : transformFuel d n with
        | none => simp [levelTItems, ha]
        | some a => simp [levelTItems, ha, levelTItems_minimal rest d hr]
      | vlist inner =>
        simp [levelTItems, levelTItems_minimal rest d hr]
termination_by sizeOf its

end

/-!
Instance-identity model.  Python nodes are heap objects: two structurally equal
nodes may still be distinct instances.  To reason about instance identity
(which nodes are "new instances" and which are shared) we decorate every node
with the identity of the object carrying it (a `Nat`, standing for the result
of `id(node)`), and give the engines an allocation counter: every object the
transformer constructs receives the next unused identity.  Erasing the
identities recovers the structural model above.
-/

mutual

/-- Modelled from the spec: a node of the node abstraction decorated with the
identity of the object carrying it. -/
inductive NodeI where
  | mk : Nat → String → FieldsI → NodeI
deriving DecidableEq

/-- Identity-decorated field list. -/
inductive FieldsI where
  | nil : FieldsI
  | cons : String → ValueI → FieldsI → FieldsI
deriving DecidableEq

/-- Identity-decorated field value. -/
inductive ValueI where
  | scalar : Nat → ValueI
  | node : NodeI → ValueI
  | vlist : ItemsI → ValueI
deriving DecidableEq

/-- Identity-decorated list items. -/
inductive ItemsI where
  | nil : ItemsI
  | cons : ValueI → ItemsI → ItemsI
deriving DecidableEq

end

mutual

/-- Erase instance identities, recovering the structural tree. -/
def eraseN : NodeI → NodeV
  | .mk _ k fs => .mk k (eraseF fs)

/-- Erase instance identities of a field list. -/
def eraseF : FieldsI → FieldsV
  | .nil => .nil
  | .cons name v rest => .cons name (eraseV v) (eraseF rest)

/-- Erase instance identities of a field value. -/
def eraseV : ValueI → ValueV
  | .scalar s => .scalar s
  | .node n => .node (eraseN n)
  | .vlist its => .vlist (eraseI its)

/-- Erase instance identities of list items. -/
def eraseI : ItemsI → ItemsV
  | .nil => .nil
  | .cons v rest => .cons (eraseV v) (eraseI rest)

end

mutual

/-- All node identities occurring in a tree. -/
def NodeI.ids : NodeI → List Nat
  | .mk i _ fs => i :: fs.ids

/-- All node identities occurring below a field list. -/
def FieldsI.ids : FieldsI → List Nat
  | .nil => []
  | .cons _ v rest => v.ids ++ rest.ids

/-- All node identities occurring below a field value. -/
def ValueI.ids : ValueI → List Nat
  | .scalar _ => []
  | .node n => n.ids
  | .vlist its => its.ids

/-- All node identities occurring below the items of a list value. -/
def ItemsI.ids : ItemsI → List Nat
  | .nil => []
  | .cons v rest => v.ids ++ rest.ids

end

/-- Every node identity in the tree was allocated before `c` (the input tree
predates the transformation; `c` is the next identity the allocator will
hand out). -/
def idsBound (t : NodeI) (c : Nat) : Prop :=
  ∀ i ∈ t.ids, i < c

mutual

/-- Whether the exact object `x` (same identity, same content) occurs somewhere
in the given tree. -/
def occursN (x : NodeI) : NodeI → Bool
  | .mk i k fs => (x == .mk i k fs) || occursF x fs

/-- Whether the object `x` occurs below a field list. -/
def occursF (x : NodeI) : FieldsI → Bool
  | .nil => false
  | .cons _ v rest => occursV x v || occursF x rest

/-- Whether the object `x` occurs below a field value. -/
def occursV (x : NodeI) : ValueI → Bool
  | .scalar _ => false
  | .node n => occursN x n
  | .vlist its => occursI x its

/-- Whether the object `x` occurs below the items of a list value. -/
def occursI (x : NodeI) : ItemsI → Bool
  | .nil => false
  | .cons v rest => occursV x v || occursI x rest

end

mutual

/-- The plain (handler-free) `NodeVisitor.visit` on identity-decorated trees:
the sequence of node objects handed to `generic_visit`, in visit order.  The
visitor constructs nothing: every element of the list is a reference into the
input tree. -/
def iVisitTrace : NodeI → List NodeI
  | .mk i k fs => .mk i k fs :: iFieldsTrace fs

/-- Field loop of the handler-free decorated traversal. -/
def iFieldsTrace : FieldsI → List NodeI
  | .nil => []
  | .cons _ v rest => iValueTrace v ++ iFieldsTrace rest

/-- One field value in the handler-free decorated traversal. -/
def iValueTrace : ValueI → List NodeI
  | .scalar _ => []
  | .node n => iVisitTrace n
  | .vlist its => iItemsTrace its

/-- Item loop of the handler-free decorated traversal. -/
def iItemsTrace : ItemsI → List NodeI
  | .nil => []
  | .cons v rest =>
    (match v with
     | .node n => iVisitTrace n
     | _ => []) ++ iItemsTrace rest

end

/-- Transformer handlers over decorated trees: a handler receives the node
object and returns an arbitrary value — possibly the very same object (sharing
the original instance), possibly a non-node. -/
abbrev HandlersI := String → Option (NodeI → ValueI)

mutual

/-- `NodeTransformer.visit` on identity-decorated trees, threading the
allocation counter: a registered handler's result is returned as-is (no
allocation by the engine); otherwise the node is rebuilt and the rebuilt
object receives the next identity — children are rebuilt first, so the parent
object is allocated after all of its descendants, exactly as
`type(node)(**new_kwargs)` runs after the field loop. -/
def NodeTransformerI.visit (hs : HandlersI) : NodeI → Nat → ValueI × Nat
  | .mk i k fs, c =>
    match hs k with
    | some h => (h (.mk i k fs), c)
    | none =>
      let p := NodeTransformerI.transFields hs fs c
      (.node (.mk p.2 k p.1), p.2 + 1)

/-- Field loop of the decorated `generic_visit`: names and order preserved,
values replaced, counter threaded left to right. -/
def NodeTransformerI.transFields (hs : HandlersI) : FieldsI → Nat → FieldsI × Nat
  | .nil, c => (.nil, c)
  | .cons name v rest, c =>
    let q := NodeTransformerI.transValue hs v c
    let r := NodeTransformerI.transFields hs rest q.2
    (.cons name q.1 r.1, r.2)

/-- One field value of the decorated `generic_visit`. -/
def NodeTransformerI.transValue (hs : HandlersI) : ValueI → Nat → ValueI × Nat
  | .scalar s, c => (.scalar s, c)
  | .node n, c => NodeTransformerI.visit hs n c
  | .vlist its, c =>
    let r := NodeTransformerI.transItems hs its c
    (.vlist r.1, r.2)

/-- Body of the item loop of the decorated `generic_visit`: node items are
visited, any other item is kept — by reference, without allocation. -/
def NodeTransformerI.transItem (hs : HandlersI) : ValueI → Nat → ValueI × Nat
  | .node n, c => NodeTransformerI.visit hs n c
  | x, c => (x, c)

/-- Item loop of the decorated `generic_visit`. -/
def NodeTransformerI.transItems (hs : HandlersI) : ItemsI → Nat → ItemsI × Nat
  | .nil, c => (.nil, c)
  | .cons v rest, c =>
    let q := NodeTransformerI.transItem hs v c
    let r := NodeTransformerI.transItems hs rest q.2
    (.cons q.1 r.1, r.2)

end

mutual

/-- A tree of the specified data model: list-valued fields hold scalars and
nodes only, never nested lists (the specification's `ChildList` is a sequence
of nodes; opaque non-node items are tolerated, cf. the item loop). -/
def NodeI.flat : NodeI → Bool
  | .mk _ _ fs => fs.flat

/-- Flatness of a field list. -/
def FieldsI.flat : FieldsI → Bool
  | .nil => true
  | .cons _ v rest => v.flat && rest.flat

/-- Flatness of a field value. -/
def ValueI.flat : ValueI → Bool
  | .scalar _ => true
  | .node n => n.flat
  | .vlist its => its.flat

/-- Flatness of list items: no item is itself a list. -/
def ItemsI.flat : ItemsI → Bool
  | .nil => true
  | .cons v rest =>
    (match v with
     | .scalar _ => true
     | .node n => n.flat
     | .vlist _ => false) && rest.flat

end

mutual

theorem ivisit_fresh (t : NodeI) (c : Nat) (hf : t.flat = true) :
    c ≤ (NodeTransformerI.visit noHandlers t c).2 ∧
      ∀ i ∈ (NodeTransformerI.visit noHandlers t c).1.ids,
        c ≤ i ∧ i < (NodeTransformerI.visit noHandlers t c).2 := by
  cases t with
  | mk j k fs =>
    rw [NodeI.flat] at hf
    have hfields := itransFields_fresh fs c hf
    simp only [NodeTransformerI.visit, noHandlers, NodeI.ids, ValueI.ids]
    constructor
    · omega
    · intro i hi
      simp only [List.mem_cons] at hi
      rcases hi with rfl | hi
      · omega
      · have := hfields.2 i hi
        omega
termination_by sizeOf t

theorem itransFields_fresh (fs : FieldsI) (c : Nat) (hf : fs.flat = true) :
    c ≤ (NodeTransformerI.transFields noHandlers fs c).2 ∧
      ∀ i ∈ (NodeTransformerI.transFields noHandlers fs c).1.ids,
        c ≤ i ∧ i < (NodeTransformerI.transFields noHandlers fs c).2 := by
  cases fs with
  | nil => simp [NodeTransformerI.transFields, FieldsI.ids]
  | cons name v rest =>
    rw [FieldsI.flat] at hf
    simp only [Bool.and_eq_true] at hf
    obtain ⟨hv, hr⟩ := hf
    have h1 := itransValue_fresh v c hv
    have h2 := itransFields_fresh rest (NodeTransformerI.transValue noHandlers v c).2 hr
    simp only [NodeTransformerI.transFields, FieldsI.ids]
    constructor
    · omega
    · intro i hi
      simp only [List.mem_append] at hi
      rcases hi with hi | hi
      · have := h1.2 i hi
        omega
      · have := h2.2 i hi
        omega
termination_by sizeOf fs

theorem itransValue_fresh (v : ValueI) (c : Nat) (hf : v.flat = true) :
    c ≤ (NodeTransformerI.transValue noHandlers v c).2 ∧
      ∀ i ∈ (NodeTransformerI.transValue noHandlers v c).1.ids,
        c ≤ i ∧ i < (NodeTransformerI.transValue noHandlers v c).2 := by
  cases v with
  | scalar s => simp [NodeTransformerI.transValue, ValueI.ids]
  | node n =>
    rw [ValueI.flat] at hf
    simpa [NodeTransformerI.transValue] using ivisit_fresh n c hf
  | vlist its =>
    rw [ValueI.flat] at hf
    simpa [NodeTransformerI.transValue, ValueI.ids] using itransItems_fresh its c hf
termination_by sizeOf v

theorem itransItems_fresh (its : ItemsI) (c : Nat) (hf : its.flat = true) :
    c ≤ (NodeTransformerI.transItems noHandlers its c).2 ∧
      ∀ i ∈ (NodeTransformerI.transItems noHandlers its c).1.ids,
        c ≤ i ∧ i < (NodeTransformerI.transItems noHandlers its c).2 := by
  cases its with
  | nil => simp [NodeTransformerI.transItems, ItemsI.ids]
  | cons v rest =>
    cases v with
    | scalar s =>
      simp only [ItemsI.flat, Bool.true_and] at hf
      have h2 := itransItems_fresh rest c hf
      simp only [NodeTransformerI.transItems, NodeTransformerI.transItem, ItemsI.ids,
        ValueI.ids, List.nil_append]
      exact h2
    | node n =>
      simp only [ItemsI.flat, Bool.and_eq_true] at hf
      obtain ⟨hv, hr⟩ := hf
      have h1 := ivisit_fresh n c hv
      have h2 :=
        itransItems_fresh rest (NodeTransformerI.visit noHandlers n c).2 hr
      simp only [NodeTransformerI.transItems, NodeTransformerI.transItem, ItemsI.ids,
        ValueI.ids]
      constructor
      · omega
      · intro i hi
        simp only [List.mem_append] at hi
        rcases hi with hi | hi
        · have := h1.2 i hi
          omega
        · have := h2.2 i hi
          omega
    | vlist inner =>
      simp [ItemsI.flat] at hf
termination_by sizeOf its

end

mutual

theorem ivisit_erase (t : NodeI) (c : Nat) :
    eraseV (NodeTransformerI.visit noHandlers t c).1 = .node (eraseN t) := by
  cases t with
  | mk j k fs =>
    simp [NodeTransformerI.visit, noHandlers, eraseV, eraseN, itransFields_erase fs c]
termination_by sizeOf t

theorem itransFields_erase (fs : FieldsI) (c : Nat) :
    eraseF (NodeTransformerI.transFields noHandlers fs c).1 = eraseF fs := by
  cases fs with
  | nil => rfl
  | cons name v rest =>
    simp [NodeTransformerI.transFields, eraseF, itransValue_erase v c,
      itransFields_erase rest (NodeTransformerI.transValue noHandlers v c).2]
termination_by sizeOf fs

theorem itransValue_erase (v : ValueI) (c : Nat) :
    eraseV (NodeTransformerI.transValue noHandlers v c).1 = eraseV v := by
  cases v with
  | scalar s => rfl
  | node n => simpa [NodeTransformerI.transValue, eraseV] using ivisit_erase n c
  | vlist its =>
    simp [NodeTransformerI.transValue, eraseV, itransItems_erase its c]
termination_by sizeOf v

theorem itransItems_erase (its : ItemsI) (c : Nat) :
    eraseI (NodeTransformerI.transItems noHandlers its c).1 = eraseI its := by
  cases its with
  | nil => rfl
  | cons v rest =>
    cases v with
    | scalar s =>
      simp [NodeTransformerI.transItems, NodeTransformerI.transItem, eraseI, eraseV,
        itransItems_erase rest c]
    | node n =>
      simp [NodeTransformerI.transItems, NodeTransformerI.transItem, eraseI, eraseV,
        ivisit_erase n c,
        itransItems_erase rest (NodeTransformerI.visit noHandlers n c).2]
    | vlist inner =>
      simp [NodeTransformerI.transItems, NodeTransformerI.transItem, eraseI, eraseV,
        itransItems_erase rest c]
termination_by sizeOf its

end

mutual

theorem iVisitTrace_occurs (t : NodeI) (x : NodeI) (hx : x ∈ iVisitTrace t) :
    occursN x t = true := by
  cases t with
  | mk j k fs =>
    rw [iVisitTrace] at hx
    rw [occursN]
    rcases List.mem_cons.mp hx with rfl | hx
    · simp
    · simp [iFieldsTrace_occurs fs x hx]
termination_by sizeOf t

theorem iFieldsTrace_occurs (fs : FieldsI) (x : NodeI) (hx : x ∈ iFieldsTrace fs) :
    occursF x fs = true := by
  cases fs with
  | nil => simp [iFieldsTrace] at hx
  | cons name v rest =>
    rw [iFieldsTrace] at hx
    rw [occursF]
    rcases List.mem_append.mp hx with hx | hx
    · simp [iValueTrace_occurs v x hx]
    · simp [iFieldsTrace_occurs rest x hx]
termination_by sizeOf fs

theorem iValueTrace_occurs (v : ValueI) (x : NodeI) (hx : x ∈ iValueTrace v) :
    occursV x v = true := by
  cases v with
  | scalar s => simp [iValueTrace] at hx
  | node n =>
    rw [iValueTrace] at hx
    rw [occursV]
    exact iVisitTrace_occurs n x hx
  | vlist its =>
    rw [iValueTrace] at hx
    rw [occursV]
    exact iItemsTrace_occurs its x hx
termination_by sizeOf v

theorem iItemsTrace_occurs (its : ItemsI) (x : NodeI) (hx : x ∈ iItemsTrace its) :
    occursI x its = true := by
  cases its with
  | nil => simp [iItemsTrace] at hx
  | cons v rest =>
    cases v with
    | scalar s =>
      simp only [iItemsTrace, List.nil_append] at hx
      rw [occursI]
      simp [iItemsTrace_occurs rest x hx]
    | node n =>
      simp only [iItemsTrace] at hx
      rw [occursI]
      rcases List.mem_append.mp hx with hx | hx
      · simp [occursV, iVisitTrace_occurs n x hx]
      · simp [iItemsTrace_occurs rest x hx]
    | vlist inner =>
      simp only [iItemsTrace, List.nil_append] at hx
      rw [occursI]
      simp [iItemsTrace_occurs rest x hx]
termination_by sizeOf its

end

/-- Consistency of one traversal event with the handler table: a handler
invocation is always keyed by the node's own concrete class name and only
happens when that exact name is registered; a fallback event only happens when
the node's own name is not registered. -/
def eventConsistent {α : Type} (hs : Handlers α) : Event → Prop
  | .handled k n => k = n.kind ∧ (hs n.kind).isSome = true
  | .visited n => hs n.kind = none

mutual

theorem visit_events_consistent {α : Type} (hs : Handlers α) (t : NodeV) (e : Event)
    (he : e ∈ (NodeVisitor.visit hs t).1) : eventConsistent hs e := by
  cases t with
  | mk k fs =>
    rw [NodeVisitor.visit] at he
    cases hk : hs k with
    | some h =>
      rw [hk] at he
      simp only [List.mem_singleton] at he
      subst he
      exact ⟨rfl, by simp [NodeV.kind, hk]⟩
    | none =>
      rw [hk] at he
      simp only [List.mem_cons] at he
      rcases he with rfl | he
      · simpa [eventConsistent, NodeV.kind] using hk
      · exact genericFields_events_consistent hs fs e he
termination_by sizeOf t

theorem genericFields_events_consistent {α : Type} (hs : Handlers α) (fs : FieldsV)
    (e : Event) (he : e ∈ NodeVisitor.genericFields hs fs) : eventConsistent hs e := by
  cases fs with
  | nil => simp [NodeVisitor.genericFields] at he
  | cons name v rest =>
    rw [NodeVisitor.genericFields] at he
    rcases List.mem_append.mp he with he | he
    · exact genericValue_events_consistent hs v e he
    · exact genericFields_events_consistent hs rest e he
termination_by sizeOf fs

theorem genericValue_events_consistent {α : Type} (hs : Handlers α) (v : ValueV)
    (e : Event) (he : e ∈ NodeVisitor.genericValue hs v) : eventConsistent hs e := by
  cases v with
  | scalar s => simp [NodeVisitor.genericValue] at he
  | node n =>
    rw [NodeVisitor.genericValue] at he
    exact visit_events_consistent hs n e he
  | vlist items =>
    rw [NodeVisitor.genericValue] at he
    exact genericItems_events_consistent hs items e he
termination_by sizeOf v

theorem genericItems_events_consistent {α : Type} (hs : Handlers α) (its : ItemsV)
    (e : Event) (he : e ∈ NodeVisitor.genericItems hs its) : eventConsistent hs e := by
  cases its with
  | nil => simp [NodeVisitor.genericItems] at he
  | cons v rest =>
    cases v with
    | scalar s =>
      simp only [NodeVisitor.genericItems, List.nil_append] at he
      exact genericItems_events_consistent hs rest e he
    | node n =>
      simp only [NodeVisitor.genericItems] at he
      rcases List.mem_append.mp he with he | he
      · exact visit_events_consistent hs n e he
      · exact genericItems_events_consistent hs rest e he
    | vlist inner =>
      simp only [NodeVisitor.genericItems, List.nil_append] at he
      exact genericItems_events_consistent hs rest e he
termination_by sizeOf its

end

/-- C1: for every finite tree and a NodeVisitor with no visit_<Kind> handlers
registered, `visit` reaches every node of the tree exactly once, in pre-order
(a node before any of its children), with children visited in the node's
declared field order and, within a list-valued field, in list order: the
sequence of nodes handed to `generic_visit` is exactly the specified pre-order
enumeration, and its length is the number of node positions of the tree. -/
theorem claim_C1_plain_traversal_is_preorder (α : Type) (t : NodeV) :
    extractVisited (NodeVisitor.visit (α := α) noHandlers t).1 = specPreorder t ∧
      (NodeVisitor.visit (α := α) noHandlers t).1.length = t.count := by
  have h := visit_trace_eq_specPreorder (α := α) t
  constructor
  · rw [h, extractVisited_map_visited]
  · rw [h, List.length_map, specPreorder_length]

/-- C2: running `NodeTransformer.visit` on a tree with no kind-specific
handlers registered returns a tree structurally equal to the input (same kinds
and field values in order at every position — the identity-erased output is the
identity-erased input) composed of new node instances (no identity of the
input tree reappears anywhere in the output tree).  The tree is taken in the
specified data model (`flat`: list fields hold no nested lists) with all its
instance identities allocated before the transformation (`idsBound`). -/
theorem claim_C2_identity_round_trip (t : NodeI) (c : Nat)
    (hf : t.flat = true) (hb : idsBound t c) :
    eraseV (NodeTransformerI.visit noHandlers t c).1 = .node (eraseN t) ∧
      ∀ i ∈ (NodeTransformerI.visit noHandlers t c).1.ids, i ∉ t.ids := by
  refine ⟨ivisit_erase t c, ?_⟩
  intro i hi hin
  have hfr := (ivisit_fresh t c hf).2 i hi
  have := hb i hin
  omega

/-- Witness for C2 at a concrete two-node tree with identities 0 and 1 and
allocation counter 2. -/
theorem claim_C2_identity_round_trip_witness :
    (NodeI.mk 0 "A" (.cons "child" (.node (.mk 1 "B" .nil)) .nil)).flat = true ∧
      idsBound (NodeI.mk 0 "A" (.cons "child" (.node (.mk 1 "B" .nil)) .nil)) 2 ∧
      eraseV (NodeTransformerI.visit noHandlers
          (NodeI.mk 0 "A" (.cons "child" (.node (.mk 1 "B" .nil)) .nil)) 2).1 =
        .node (eraseN (NodeI.mk 0 "A" (.cons "child" (.node (.mk 1 "B" .nil)) .nil))) ∧
      3 ∉ (NodeI.mk 0 "A" (.cons "child" (.node (.mk 1 "B" .nil)) .nil)).ids :=
  ⟨by decide, by unfold idsBound; decide,
    (claim_C2_identity_round_trip
        (NodeI.mk 0 "A" (.cons "child" (.node (.mk 1 "B" .nil)) .nil)) 2
        (by decide) (by unfold idsBound; decide)).1,
    (claim_C2_identity_round_trip
        (NodeI.mk 0 "A" (.cons "child" (.node (.mk 1 "B" .nil)) .nil)) 2
        (by decide) (by unfold idsBound; decide)).2 3 (by decide)⟩

/-- C3: for every node and every handler table, `NodeTransformer.generic_visit`
returns a node of the same kind as the input, carrying exactly the same field
names in the same declared order — no field dropped, added, or reordered. -/
theorem claim_C3_reconstruction_same_kind_and_fields (hs : THandlers) (n : NodeV) :
    (NodeTransformer.generic_visit hs n).kind = n.kind ∧
      (NodeTransformer.generic_visit hs n).fieldsOf.names = n.fieldsOf.names := by
  cases n with
  | mk k fs =>
    constructor
    · rfl
    · simpa [NodeTransformer.generic_visit, NodeV.kind, NodeV.fieldsOf] using
        transFields_names hs fs

/-- C4: `NodeVisitor.visit` resolves a handler by the node's concrete kind: if
a visit_<Kind> handler is registered for it, that handler is invoked with the
node and its result is returned, and the produced trace is the single handler
invocation — the engine does not recurse into the node's children; only when
no such handler exists does the node fall through to the generic traversal of
its fields. -/
theorem claim_C4_dispatch_rule (α : Type) (hs : Handlers α) (n : NodeV) :
    (∀ h, hs n.kind = some h →
        NodeVisitor.visit hs n = ([Event.handled n.kind n], some (h n))) ∧
      (hs n.kind = none →
        NodeVisitor.visit hs n =
          (Event.visited n :: NodeVisitor.genericFields hs n.fieldsOf, none)) := by
  cases n with
  | mk k fs =>
    constructor
    · intro h hk
      rw [NodeV.kind] at hk
      simp [NodeVisitor.visit, hk, NodeV.kind]
    · intro hk
      rw [NodeV.kind] at hk
      simp [NodeVisitor.visit, hk, NodeV.fieldsOf]

/-- Witness for C4: a handler registered for kind A is invoked on an A node and
its result is returned with no recursion; the same node under an empty table
falls through to the generic traversal. -/
theorem claim_C4_dispatch_rule_witness :
    (fun k => if k = "A" then some (fun _ : NodeV => (5 : Nat)) else none)
        (NodeV.mk "A" .nil).kind = some (fun _ : NodeV => (5 : Nat)) ∧
      NodeVisitor.visit
          (fun k => if k = "A" then some (fun _ : NodeV => (5 : Nat)) else none)
          (NodeV.mk "A" .nil) =
        ([Event.handled (NodeV.mk "A" .nil).kind (NodeV.mk "A" .nil)], some 5) :=
  ⟨rfl,
    (claim_C4_dispatch_rule Nat
        (fun k => if k = "A" then some (fun _ : NodeV => (5 : Nat)) else none)
        (NodeV.mk "A" .nil)).1 (fun _ : NodeV => (5 : Nat)) rfl⟩

/-- C5 counterexample: a handler that substitutes a non-node (the scalar 42)
for a child node of kind Literal does not make the Transformation Engine fail:
the transformation completes normally and returns a Comparison node whose
`left` field silently holds the incompatible scalar.  No failure is raised and
no kind/field context is surfaced, contradicting the claimed loud failure. -/
theorem claim_C5_counterexample :
    NodeTransformer.visit
        (fun k => if k = "Literal" then some (fun _ => ValueV.scalar 42) else none)
        (NodeV.mk "Comparison"
          (.cons "left" (.node (.mk "Literal" (.cons "val" (.scalar 7) .nil))) .nil)) =
      .node (.mk "Comparison" (.cons "left" (.scalar 42) .nil)) := by
  decide

/-- C5 amended: if a handler's substitute value is incompatible with a field's
declared kind (for example a handler returns a non-node for a child field),
the Transformation Engine performs no validation and does not fail:
reconstruction incorporates the handler's result verbatim into the rebuilt
node at the field's position, and the transformation completes normally. -/
theorem claim_C5_no_validation_of_substitutes (hs : THandlers) (k name : String)
    (m : NodeV) (rest : FieldsV) (h : NodeV → ValueV) (hk : hs m.kind = some h) :
    NodeTransformer.generic_visit hs (.mk k (.cons name (.node m) rest)) =
      .mk k (.cons name (h m) (NodeTransformer.transFields hs rest)) := by
  cases m with
  | mk km fsm =>
    rw [NodeV.kind] at hk
    simp [NodeTransformer.generic_visit, NodeV.kind, NodeV.fieldsOf,
      NodeTransformer.transFields, NodeTransformer.transValue, NodeTransformer.visit, hk]

/-- Witness for the amended C5: the Literal handler's scalar result lands
verbatim in the rebuilt Comparison node. -/
theorem claim_C5_no_validation_of_substitutes_witness :
    (fun s => if s = "Literal" then some (fun _ : NodeV => ValueV.scalar 42) else none)
        (NodeV.mk "Literal" (.cons "val" (.scalar 7) .nil)).kind =
      some (fun _ : NodeV => ValueV.scalar 42) ∧
      NodeTransformer.generic_visit
          (fun s => if s = "Literal" then some (fun _ : NodeV => ValueV.scalar 42) else none)
          (.mk "Comparison"
            (.cons "left" (.node (.mk "Literal" (.cons "val" (.scalar 7) .nil))) .nil)) =
        .mk "Comparison" (.cons "left" (ValueV.scalar 42)
          (NodeTransformer.transFields
            (fun s => if s = "Literal" then some (fun _ : NodeV => ValueV.scalar 42) else none)
            .nil)) :=
  ⟨rfl,
    claim_C5_no_validation_of_substitutes
      (fun s => if s = "Literal" then some (fun _ : NodeV => ValueV.scalar 42) else none)
      "Comparison" "left" (NodeV.mk "Literal" (.cons "val" (.scalar 7) .nil)) .nil
      (fun _ : NodeV => ValueV.scalar 42) rfl⟩

/-- C6: the input tree is unchanged by both engines.  The traversal engine
never constructs a node: every node object it hands to `generic_visit` occurs
(with its original identity and unchanged content) in the input tree.  The
transformation engine builds its output from freshly allocated instances only:
no identity of the input tree appears in the output tree, so no input node is
modified or reused in place. -/
theorem claim_C6_input_tree_unchanged (t : NodeI) (c : Nat)
    (hf : t.flat = true) (hb : idsBound t c) :
    (∀ x ∈ iVisitTrace t, occursN x t = true) ∧
      ∀ i ∈ (NodeTransformerI.visit noHandlers t c).1.ids, i ∉ t.ids := by
  refine ⟨fun x hx => iVisitTrace_occurs t x hx, ?_⟩
  intro i hi hin
  have hfr := (ivisit_fresh t c hf).2 i hi
  have := hb i hin
  omega

/-- Witness for C6 at a concrete two-node tree: the root object itself is
traced and occurs in the input, and the output identity 3 is not an input
identity. -/
theorem claim_C6_input_tree_unchanged_witness :
    (NodeI.mk 0 "A" (.cons "child" (.node (.mk 1 "B" .nil)) .nil)).flat = true ∧
      idsBound (NodeI.mk 0 "A" (.cons "child" (.node (.mk 1 "B" .nil)) .nil)) 2 ∧
      occursN (NodeI.mk 0 "A" (.cons "child" (.node (.mk 1 "B" .nil)) .nil))
        (NodeI.mk 0 "A" (.cons "child" (.node (.mk 1 "B" .nil)) .nil)) = true ∧
      3 ∉ (NodeI.mk 0 "A" (.cons "child" (.node (.mk 1 "B" .nil)) .nil)).ids :=
  ⟨by decide, by unfold idsBound; decide,
    (claim_C6_input_tree_unchanged
        (NodeI.mk 0 "A" (.cons "child" (.node (.mk 1 "B" .nil)) .nil)) 2
        (by decide) (by unfold idsBound; decide)).1
      (NodeI.mk 0 "A" (.cons "child" (.node (.mk 1 "B" .nil)) .nil)) (by decide),
    (claim_C6_input_tree_unchanged
        (NodeI.mk 0 "A" (.cons "child" (.node (.mk 1 "B" .nil)) .nil)) 2
        (by decide) (by unfold idsBound; decide)).2 3 (by decide)⟩

/-- C7 counterexample: with no handlers registered at all (so no child is
altered by any handler), transforming the tree A(child = B) whose objects have
identities 0 and 1 (allocator at 2) yields a fresh A object (identity 3) whose
child is a fresh B object with identity 2 — structurally equal to the original
child but not the original instance (identity 1).  The unaltered child is a
reconstructed copy, not a shared reference, refuting the claim. -/
theorem claim_C7_counterexample :
    NodeTransformerI.visit noHandlers
        (NodeI.mk 0 "A" (.cons "child" (.node (.mk 1 "B" .nil)) .nil)) 2 =
      (.node (.mk 3 "A" (.cons "child" (.node (.mk 2 "B" .nil)) .nil)), 4) ∧
      eraseN (NodeI.mk 2 "B" .nil) = eraseN (NodeI.mk 1 "B" .nil) ∧
      NodeI.mk 2 "B" .nil ≠ NodeI.mk 1 "B" .nil := by
  decide

/-- C7 amended: in the tree returned by the Transformation Engine with no
handlers registered, every node — the reconstructed nodes and in particular
every child that no handler altered — is a freshly allocated instance, never
an instance of the input tree; unaltered children are fresh, structurally
equal reconstructions rather than shared references (the whole output erases
to the input), and only non-node values are passed through unchanged. -/
theorem claim_C7_reconstruction_is_fresh (t : NodeI) (c : Nat)
    (hf : t.flat = true) (hb : idsBound t c) :
    (∀ i ∈ (NodeTransformerI.visit noHandlers t c).1.ids, c ≤ i ∧ i ∉ t.ids) ∧
      eraseV (NodeTransformerI.visit noHandlers t c).1 = .node (eraseN t) := by
  constructor
  · intro i hi
    have hfr := (ivisit_fresh t c hf).2 i hi
    refine ⟨hfr.1, fun hin => ?_⟩
    have := hb i hin
    omega
  · exact ivisit_erase t c

/-- Witness for the amended C7: output identity 2 (the rebuilt child) is fresh
and absent from the input tree. -/
theorem claim_C7_reconstruction_is_fresh_witness :
    (NodeI.mk 0 "A" (.cons "child" (.node (.mk 1 "B" .nil)) .nil)).flat = true ∧
      idsBound (NodeI.mk 0 "A" (.cons "child" (.node (.mk 1 "B" .nil)) .nil)) 2 ∧
      (2 ≤ 2 ∧ 2 ∉ (NodeI.mk 0 "A" (.cons "child" (.node (.mk 1 "B" .nil)) .nil)).ids) ∧
      eraseV (NodeTransformerI.visit noHandlers
          (NodeI.mk 0 "A" (.cons "child" (.node (.mk 1 "B" .nil)) .nil)) 2).1 =
        .node (eraseN (NodeI.mk 0 "A" (.cons "child" (.node (.mk 1 "B" .nil)) .nil))) :=
  ⟨by decide, by unfold idsBound; decide,
    (claim_C7_reconstruction_is_fresh
        (NodeI.mk 0 "A" (.cons "child" (.node (.mk 1 "B" .nil)) .nil)) 2
        (by decide) (by unfold idsBound; decide)).1 2 (by decide),
    (claim_C7_reconstruction_is_fresh
        (NodeI.mk 0 "A" (.cons "child" (.node (.mk 1 "B" .nil)) .nil)) 2
        (by decide) (by unfold idsBound; decide)).2⟩

/-- C8: on every finite tree the handler-free engines terminate with recursion
depth equal to the tree's depth: a call-stack budget of exactly the tree's
depth suffices for both engines (the traversal then produces its pre-order
trace and the transformer its reconstruction, agreeing with the unbounded
engines), while every smaller budget is exhausted; a node with zero children
completes within a single level, and an empty list-valued field likewise adds
no recursion. -/
theorem claim_C8_termination_at_tree_depth (t : NodeV) :
    visitFuel t.depth t = some (specPreorder t) ∧
      (∀ d, d < t.depth → visitFuel d t = none) ∧
      transformFuel t.depth t = some (NodeTransformer.visit noHandlers t) ∧
      (∀ d, d < t.depth → transformFuel d t = none) ∧
      (∀ k, visitFuel 1 (.mk k .nil) = some [.mk k .nil]) ∧
      (∀ k name, visitFuel 1 (.mk k (.cons name (.vlist .nil) .nil)) =
        some [.mk k (.cons name (.vlist .nil) .nil)]) := by
  refine ⟨visitFuel_adequate t t.depth le_rfl,
    fun d hd => visitFuel_minimal t d hd, ?_,
    fun d hd => transformFuel_minimal t d hd,
    fun k => rfl, fun k name => rfl⟩
  rw [transformer_visit_noHandlers_id]
  exact transformFuel_adequate t t.depth le_rfl

/-- Witness for C8: the two-level tree A(child = B) has depth 2; budget 1 is
exhausted before the traversal completes. -/
theorem claim_C8_termination_at_tree_depth_witness :
    1 < (NodeV.mk "A" (.cons "child" (.node (.mk "B" .nil)) .nil)).depth ∧
      visitFuel 1 (NodeV.mk "A" (.cons "child" (.node (.mk "B" .nil)) .nil)) = none :=
  ⟨by decide,
    (claim_C8_termination_at_tree_depth
        (NodeV.mk "A" (.cons "child" (.node (.mk "B" .nil)) .nil))).2.1 1 (by decide)⟩

/-- C9: for every node with a list-valued field, `NodeTransformer.generic_visit`
rebuilds that field in place as the item-by-item transform of the original
list: same length, every position mapped by the loop body, where a non-node
item is passed through unchanged at its original position and a node item is
replaced by the result of visiting it — node and non-node items may be
interleaved and positions are never shuffled. -/
theorem claim_C9_list_field_positionwise (hs : THandlers) (k name : String)
    (items : ItemsV) (rest : FieldsV) :
    NodeTransformer.generic_visit hs (.mk k (.cons name (.vlist items) rest)) =
        .mk k (.cons name (.vlist (NodeTransformer.transItems hs items))
          (NodeTransformer.transFields hs rest)) ∧
      (NodeTransformer.transItems hs items).toList.length = items.toList.length ∧
      (∀ i : Nat, (NodeTransformer.transItems hs items).toList[i]? =
        (items.toList[i]?).map (NodeTransformer.transItem hs)) ∧
      (∀ v : ValueV, v.isNode = false → NodeTransformer.transItem hs v = v) ∧
      (∀ n : NodeV, NodeTransformer.transItem hs (.node n) =
        NodeTransformer.visit hs n) := by
  refine ⟨rfl, ?_, ?_, ?_, fun n => rfl⟩
  · rw [transItems_toList, List.length_map]
  · intro i
    rw [transItems_toList, List.getElem?_map]
  · intro v hv
    cases v with
    | scalar s => rfl
    | node n => simp [ValueV.isNode] at hv
    | vlist inner => rfl

/-- Witness for C9: a non-node item (the scalar 3) is passed through the loop
body unchanged. -/
theorem claim_C9_list_field_positionwise_witness :
    (ValueV.scalar 3).isNode = false ∧
      NodeTransformer.transItem noHandlers (ValueV.scalar 3) = ValueV.scalar 3 :=
  ⟨rfl,
    (claim_C9_list_field_positionwise noHandlers "k" "f" .nil .nil).2.2.2.1
      (ValueV.scalar 3) rfl⟩

/-- C10: handler dispatch in both engines matches on the node's exact runtime
class name only: every handler invocation the traversal produces is keyed by
the visited node's own class name and only occurs when that exact name is
registered (a handler registered for one class is never invoked for an
instance of any other class — in particular a subclass, which carries its own
class name); a node whose own name is unregistered falls back to
`generic_visit`, and the transformer dispatches identically. -/
theorem claim_C10_dispatch_exact_class_name (α : Type) (hs : Handlers α)
    (hs2 : THandlers) (t : NodeV) :
    (∀ k n, Event.handled k n ∈ (NodeVisitor.visit hs t).1 →
        k = n.kind ∧ (hs n.kind).isSome = true) ∧
      (∀ n, Event.visited n ∈ (NodeVisitor.visit hs t).1 → hs n.kind = none) ∧
      (∀ h, hs2 t.kind = some h → NodeTransformer.visit hs2 t = h t) ∧
      (hs2 t.kind = none →
        NodeTransformer.visit hs2 t = .node (NodeTransformer.generic_visit hs2 t)) := by
  refine ⟨?_, ?_, ?_, ?_⟩
  · intro k n hmem
    exact visit_events_consistent hs t (Event.handled k n) hmem
  · intro n hmem
    exact visit_events_consistent hs t (Event.visited n) hmem
  · intro h hk
    cases t with
    | mk k fs =>
      rw [NodeV.kind] at hk
      simp [NodeTransformer.visit, hk]
  · intro hk
    cases t with
    | mk k fs =>
      rw [NodeV.kind] at hk
      simp [NodeTransformer.visit, hk, NodeTransformer.generic_visit, NodeV.kind,
        NodeV.fieldsOf]

/-- Witness for C10: with a handler registered for class name A only, the
traversal of C(x = A-node) invokes the A handler exactly for the A instance,
the C instance falls back to the generic path, and the transformer dispatch
behaves identically on both class names. -/
theorem claim_C10_dispatch_exact_class_name_witness :
    ("A" = (NodeV.mk "A" .nil).kind ∧
        ((fun k => if k = "A" then some (fun _ : NodeV => (1 : Nat)) else none)
          (NodeV.mk "A" .nil).kind).isSome = true) ∧
      ((fun k => if k = "A" then some (fun _ : NodeV => (1 : Nat)) else none)
        (NodeV.mk "C" (.cons "x" (.node (.mk "A" .nil)) .nil)).kind = none) ∧
      NodeTransformer.visit
          (fun k => if k = "A" then some (fun _ : NodeV => ValueV.scalar 1) else none)
          (NodeV.mk "A" .nil) =
        ValueV.scalar 1 ∧
      NodeTransformer.visit
          (fun k => if k = "A" then some (fun _ : NodeV => ValueV.scalar 1) else none)
          (NodeV.mk "C" (.cons "x" (.node (.mk "A" .nil)) .nil)) =
        .node (NodeTransformer.generic_visit
          (fun k => if k = "A" then some (fun _ : NodeV => ValueV.scalar 1) else none)
          (NodeV.mk "C" (.cons "x" (.node (.mk "A" .nil)) .nil))) :=
  ⟨(claim_C10_dispatch_exact_class_name Nat
        (fun k => if k = "A" then some (fun _ : NodeV => (1 : Nat)) else none)
        (fun k => if k = "A" then some (fun _ : NodeV => ValueV.scalar 1) else none)
        (NodeV.mk "C" (.cons "x" (.node (.mk "A" .nil)) .nil))).1 "A"
      (NodeV.mk "A" .nil) (by decide),
    (claim_C10_dispatch_exact_class_name Nat
        (fun k => if k = "A" then some (fun _ : NodeV => (1 : Nat)) else none)
        (fun k => if k = "A" then some (fun _ : NodeV => ValueV.scalar 1) else none)
        (NodeV.mk "C" (.cons "x" (.node (.mk "A" .nil)) .nil))).2.1
      (NodeV.mk "C" (.cons "x" (.node (.mk "A" .nil)) .nil)) (by decide),
    (claim_C10_dispatch_exact_class_name Nat
        (fun k => if k = "A" then some (fun _ : NodeV => (1 : Nat)) else none)
        (fun k => if k = "A" then some (fun _ : NodeV => ValueV.scalar 1) else none)
        (NodeV.mk "A" .nil)).2.2.1 (fun _ : NodeV => ValueV.scalar 1) rfl,
    (claim_C10_dispatch_exact_class_name Nat
        (fun k => if k = "A" then some (fun _ : NodeV => (1 : Nat)) else none)
        (fun k => if k = "A" then some (fun _ : NodeV => ValueV.scalar 1) else none)
        (NodeV.mk "C" (.cons "x" (.node (.mk "A" .nil)) .nil))).2.2.2 rfl⟩
